import Mathlib

/-!
Verification of the TravelAssistant crawler/graph core against its
natural-language specification.

The definitions below are a shallow embedding of the Python source:

* `update_global_graph` embeds
  `data_ingestion_service/utils/file_manager.py::update_global_graph`
  (the pure read-merge part; file IO is abstracted into the `Graph` value).
* `fetchRec` embeds the visited-set discipline of
  `data_ingestion_service/fetchers/wikivoyage_fetcher.py::_fetch_linked_pages_recursive`.
* `extract_section_content` / `extract_links_from_section` embed the
  heading-matching logic of `_extract_section_content` and
  `_extract_links_from_section` (DOM content walks are abstracted into
  per-heading payloads, since the claims are about heading matching).
* `detect_country_from_breadcrumbs`, `normalize_breadcrumb_path`,
  `detect_node_type`, `detect_relationship_type` embed the functions of
  the same names (module-level snake case preserved).

Python dict lookups with `.get` are modelled with `Option`; Python
truthiness of strings/lists is modelled by inequality with the empty
string/list.  Character classes use the ASCII semantics of Lean's
`Char.isAlphanum`/`Char.toLower`; all inputs appearing in the claims are
ASCII, and both sides of every comparison use the same class.
-/

namespace TravelGraph

/-- A graph node as produced by the fetcher: a dict with an `id` entry
(`none` models a missing key or `None`) and the remaining entries kept
abstract as a key/value list. Mirrors the dicts consumed by
`update_global_graph` in `file_manager.py`. -/
structure GNode where
  id : Option String
  payload : List (String × String)
deriving DecidableEq

/-- A graph edge dict: `source`, `target`, `type` (via `.get`, hence
`Option`) plus abstract remaining entries. -/
structure GEdge where
  source : Option String
  target : Option String
  type : Option String
  payload : List (String × String)
deriving DecidableEq

/-- The dedup key used by `update_global_graph` for edges:
`(edge.get("source"), edge.get("target"), edge.get("type"))`. -/
def edgeKey (e : GEdge) : Option String × Option String × Option String :=
  (e.source, e.target, e.type)

/-- The persisted global graph: node list, edge list, and the metadata
fields written by `update_global_graph` (`source`, `node_count`,
`edge_count`). -/
structure Graph where
  nodes : List GNode
  edges : List GEdge
  metaSource : String
  node_count : Nat
  edge_count : Nat
deriving DecidableEq

/-- Python truthiness of `node.get("id")`: false for a missing key,
`None`, or the empty string. -/
def idOk : Option String → Bool
  | none => false
  | some s => s != ""

/-- The node loop of `update_global_graph`: append a batch node only if
its id is truthy and not already present (the `existing_nodes` dict is
updated as nodes are appended, so duplicates inside one batch are also
suppressed). -/
def mergeNodes : List GNode → List GNode → List GNode
  | cur, [] => cur
  | cur, n :: rest =>
    if idOk n.id = true ∧ ∀ m ∈ cur, m.id ≠ n.id then
      mergeNodes (cur ++ [n]) rest
    else
      mergeNodes cur rest

/-- The edge loop of `update_global_graph`: append a batch edge only if
no present edge has the same `(source, target, type)` key. -/
def mergeEdges : List GEdge → List GEdge → List GEdge
  | cur, [] => cur
  | cur, e :: rest =>
    if ∀ f ∈ cur, edgeKey f ≠ edgeKey e then
      mergeEdges (cur ++ [e]) rest
    else
      mergeEdges cur rest

/-- `file_manager.update_global_graph`, read-merge-write modelled as a
pure function on the loaded graph: merge the node and edge batches and
recompute `node_count`/`edge_count` from the merged collections. -/
def update_global_graph (g : Graph) (nodes : List GNode) (edges : List GEdge) : Graph :=
  let ns := mergeNodes g.nodes nodes
  let es := mergeEdges g.edges edges
  { nodes := ns, edges := es, metaSource := g.metaSource,
    node_count := ns.length, edge_count := es.length }

/-- The fresh graph created when no `graph.json` exists yet. -/
def emptyGraph (src : String) : Graph :=
  { nodes := [], edges := [], metaSource := src, node_count := 0, edge_count := 0 }

/-- A whole sequence of merges, one `(nodes, edges)` batch at a time. -/
def applyBatches (g : Graph) (bs : List (List GNode × List GEdge)) : Graph :=
  bs.foldl (fun acc b => update_global_graph acc b.1 b.2) g

theorem mergeNodes_nil (cur : List GNode) : mergeNodes cur [] = cur := rfl

theorem mergeEdges_nil (cur : List GEdge) : mergeEdges cur [] = cur := rfl

theorem mergeNodes_cons (cur : List GNode) (n : GNode) (rest : List GNode) :
    mergeNodes cur (n :: rest) =
      if idOk n.id = true ∧ ∀ m ∈ cur, m.id ≠ n.id then
        mergeNodes (cur ++ [n]) rest
      else
        mergeNodes cur rest := rfl

theorem mergeEdges_cons (cur : List GEdge) (e : GEdge) (rest : List GEdge) :
    mergeEdges cur (e :: rest) =
      if ∀ f ∈ cur, edgeKey f ≠ edgeKey e then
        mergeEdges (cur ++ [e]) rest
      else
        mergeEdges cur rest := rfl

theorem mergeNodes_append (ns : List GNode) :
    ∀ cur, ∃ extra, mergeNodes cur ns = cur ++ extra := by
  induction ns with
  | nil => intro cur; exact ⟨[], by simp [mergeNodes_nil]⟩
  | cons n rest ih =>
    intro cur
    by_cases h : idOk n.id = true ∧ ∀ m ∈ cur, m.id ≠ n.id
    · obtain ⟨extra, hex⟩ := ih (cur ++ [n])
      refine ⟨n :: extra, ?_⟩
      rw [mergeNodes_cons, if_pos h, hex]
      simp
    · obtain ⟨extra, hex⟩ := ih cur
      refine ⟨extra, ?_⟩
      rw [mergeNodes_cons, if_neg h, hex]

theorem mergeEdges_append (es : List GEdge) :
    ∀ cur, ∃ extra, mergeEdges cur es = cur ++ extra := by
  induction es with
  | nil => intro cur; exact ⟨[], by simp [mergeEdges_nil]⟩
  | cons e rest ih =>
    intro cur
    by_cases h : ∀ f ∈ cur, edgeKey f ≠ edgeKey e
    · obtain ⟨extra, hex⟩ := ih (cur ++ [e])
      refine ⟨e :: extra, ?_⟩
      rw [mergeEdges_cons, if_pos h, hex]
      simp
    · obtain ⟨extra, hex⟩ := ih cur
      refine ⟨extra, ?_⟩
      rw [mergeEdges_cons, if_neg h, hex]

theorem mergeNodes_id_present (ns : List GNode) :
    ∀ cur n, n ∈ ns → idOk n.id = true →
      ∃ m ∈ mergeNodes cur ns, m.id = n.id := by
  induction ns with
  | nil => intro cur n hn; exact absurd hn (List.not_mem_nil n)
  | cons a rest ih =>
    intro cur n hn hok
    by_cases h : idOk a.id = true ∧ ∀ m ∈ cur, m.id ≠ a.id
    · rw [mergeNodes_cons, if_pos h]
      rcases List.mem_cons.mp hn with hna | hmem
      · obtain ⟨extra, hex⟩ := mergeNodes_append rest (cur ++ [a])
        refine ⟨a, ?_, by rw [hna]⟩
        rw [hex]
        simp
      · exact ih (cur ++ [a]) n hmem hok
    · rw [mergeNodes_cons, if_neg h]
      rcases List.mem_cons.mp hn with hna | hmem
      · rcases not_and_or.mp h with hbad | hex
        · rw [hna] at hok
          exact absurd hok hbad
        · push_neg at hex
          obtain ⟨m, hm, hid⟩ := hex
          obtain ⟨extra, hrw⟩ := mergeNodes_append rest cur
          refine ⟨m, ?_, by rw [hid, hna]⟩
          rw [hrw]
          exact List.mem_append_left extra hm
      · exact ih cur n hmem hok

theorem mergeEdges_key_present (es : List GEdge) :
    ∀ cur e, e ∈ es → ∃ f ∈ mergeEdges cur es, edgeKey f = edgeKey e := by
  induction es with
  | nil => intro cur e he; exact absurd he (List.not_mem_nil e)
  | cons a rest ih =>
    intro cur e he
    by_cases h : ∀ f ∈ cur, edgeKey f ≠ edgeKey a
    · rw [mergeEdges_cons, if_pos h]
      rcases List.mem_cons.mp he with hea | hmem
      · obtain ⟨extra, hex⟩ := mergeEdges_append rest (cur ++ [a])
        refine ⟨a, ?_, by rw [hea]⟩
        rw [hex]
        simp
      · exact ih (cur ++ [a]) e hmem
    · rw [mergeEdges_cons, if_neg h]
      rcases List.mem_cons.mp he with hea | hmem
      · push_neg at h
        obtain ⟨f, hf, hkey⟩ := h
        obtain ⟨extra, hrw⟩ := mergeEdges_append rest cur
        refine ⟨f, ?_, by rw [hkey, hea]⟩
        rw [hrw]
        exact List.mem_append_left extra hf
      · exact ih cur e hmem

theorem mergeNodes_no_new (ns : List GNode) :
    ∀ cur, (∀ n ∈ ns, idOk n.id = true → ∃ m ∈ cur, m.id = n.id) →
      mergeNodes cur ns = cur := by
  induction ns with
  | nil => intro cur _; rfl
  | cons a rest ih =>
    intro cur hall
    have hskip : ¬ (idOk a.id = true ∧ ∀ m ∈ cur, m.id ≠ a.id) := by
      rintro ⟨hok, hfresh⟩
      obtain ⟨m, hm, hid⟩ := hall a (List.mem_cons_self a rest) hok
      exact hfresh m hm hid
    rw [mergeNodes_cons, if_neg hskip]
    exact ih cur (fun n hn hok => hall n (List.mem_cons_of_mem a hn) hok)

theorem mergeEdges_no_new (es : List GEdge) :
    ∀ cur, (∀ e ∈ es, ∃ f ∈ cur, edgeKey f = edgeKey e) →
      mergeEdges cur es = cur := by
  induction es with
  | nil => intro cur _; rfl
  | cons a rest ih =>
    intro cur hall
    have hskip : ¬ (∀ f ∈ cur, edgeKey f ≠ edgeKey a) := by
      intro hfresh
      obtain ⟨f, hf, hkey⟩ := hall a (List.mem_cons_self a rest)
      exact hfresh f hf hkey
    rw [mergeEdges_cons, if_neg hskip]
    exact ih cur (fun e he => hall e (List.mem_cons_of_mem a he))

theorem mergeNodes_nodup_ids (ns : List GNode) :
    ∀ cur, ((cur.map GNode.id).Nodup) →
      ((mergeNodes cur ns).map GNode.id).Nodup := by
  induction ns with
  | nil => intro cur h; exact h
  | cons a rest ih =>
    intro cur hcur
    by_cases h : idOk a.id = true ∧ ∀ m ∈ cur, m.id ≠ a.id
    · rw [mergeNodes_cons, if_pos h]
      refine ih (cur ++ [a]) ?_
      rw [List.map_append, List.nodup_append]
      refine ⟨hcur, List.nodup_singleton a.id, ?_⟩
      intro x hx hxa
      simp only [List.map_cons, List.map_nil, List.mem_singleton] at hxa
      obtain ⟨m, hm, hmid⟩ := List.mem_map.mp hx
      exact h.2 m hm (by rw [hmid, hxa])
    · rw [mergeNodes_cons, if_neg h]
      exact ih cur hcur

theorem mergeEdges_nodup_keys (es : List GEdge) :
    ∀ cur, ((cur.map edgeKey).Nodup) →
      ((mergeEdges cur es).map edgeKey).Nodup := by
  induction es with
  | nil => intro cur h; exact h
  | cons a rest ih =>
    intro cur hcur
    by_cases h : ∀ f ∈ cur, edgeKey f ≠ edgeKey a
    · rw [mergeEdges_cons, if_pos h]
      refine ih (cur ++ [a]) ?_
      rw [List.map_append, List.nodup_append]
      refine ⟨hcur, List.nodup_singleton (edgeKey a), ?_⟩
      intro x hx hxa
      simp only [List.map_cons, List.map_nil, List.mem_singleton] at hxa
      obtain ⟨f, hf, hfk⟩ := List.mem_map.mp hx
      exact h f hf (by rw [hfk, hxa])
    · rw [mergeEdges_cons, if_neg h]
      exact ih cur hcur

theorem mem_mergeNodes (ns : List GNode) :
    ∀ cur m, m ∈ mergeNodes cur ns →
      m ∈ cur ∨ (m ∈ ns ∧ idOk m.id = true) := by
  induction ns with
  | nil => intro cur m hm; exact Or.inl hm
  | cons a rest ih =>
    intro cur m hm
    by_cases h : idOk a.id = true ∧ ∀ m ∈ cur, m.id ≠ a.id
    · rw [mergeNodes_cons, if_pos h] at hm
      rcases ih (cur ++ [a]) m hm with hc | ⟨hrest, hok⟩
      · rcases List.mem_append.mp hc with hc1 | hc2
        · exact Or.inl hc1
        · have hma : m = a := List.mem_singleton.mp hc2
          exact Or.inr ⟨by rw [hma]; exact List.mem_cons_self a rest,
            by rw [hma]; exact h.1⟩
      · exact Or.inr ⟨List.mem_cons_of_mem a hrest, hok⟩
    · rw [mergeNodes_cons, if_neg h] at hm
      rcases ih cur m hm with hc | ⟨hrest, hok⟩
      · exact Or.inl hc
      · exact Or.inr ⟨List.mem_cons_of_mem a hrest, hok⟩

theorem mergeNodes_skip_bad (ns1 : List GNode) :
    ∀ cur bad ns2, idOk bad.id = false →
      mergeNodes cur (ns1 ++ bad :: ns2) = mergeNodes cur (ns1 ++ ns2) := by
  induction ns1 with
  | nil =>
    intro cur bad ns2 hbad
    have hskip : ¬ (idOk bad.id = true ∧ ∀ m ∈ cur, m.id ≠ bad.id) := by
      rintro ⟨hok, _⟩
      rw [hbad] at hok
      exact Bool.false_ne_true hok
    simp only [List.nil_append]
    rw [mergeNodes_cons, if_neg hskip]
  | cons a rest ih =>
    intro cur bad ns2 hbad
    simp only [List.cons_append]
    rw [mergeNodes_cons, mergeNodes_cons]
    by_cases h : idOk a.id = true ∧ ∀ m ∈ cur, m.id ≠ a.id
    · rw [if_pos h, if_pos h, ih (cur ++ [a]) bad ns2 hbad]
    · rw [if_neg h, if_neg h, ih cur bad ns2 hbad]

/-- C1. Global-graph merge is idempotent: merging the same `(nodes, edges)`
batch twice into any existing graph (the empty graph included) yields the
same graph as merging it once. -/
theorem update_global_graph_idempotent (g : Graph) (ns : List GNode) (es : List GEdge) :
    update_global_graph (update_global_graph g ns es) ns es =
      update_global_graph g ns es := by
  have hn : mergeNodes (mergeNodes g.nodes ns) ns = mergeNodes g.nodes ns :=
    mergeNodes_no_new ns (mergeNodes g.nodes ns)
      (fun n hn hok => mergeNodes_id_present ns g.nodes n hn hok)
  have he : mergeEdges (mergeEdges g.edges es) es = mergeEdges g.edges es :=
    mergeEdges_no_new es (mergeEdges g.edges es)
      (fun e he => mergeEdges_key_present es g.edges e he)
  simp [update_global_graph, hn, he]

/-- C6. Starting from the empty graph, after any sequence of
`update_global_graph` merges no two persisted nodes share an `id` and no
two persisted edges share a `(source, target, type)` key; moreover any
further merge only appends: the existing node and edge lists are
preserved unchanged as a prefix, so present entries are never
overwritten. -/
theorem global_graph_node_uniqueness (src : String)
    (bs : List (List GNode × List GEdge)) :
    (((applyBatches (emptyGraph src) bs).nodes.map GNode.id).Nodup ∧
      ((applyBatches (emptyGraph src) bs).edges.map edgeKey).Nodup) ∧
    (∀ ns es, ∃ extraN extraE,
      (update_global_graph (applyBatches (emptyGraph src) bs) ns es).nodes =
        (applyBatches (emptyGraph src) bs).nodes ++ extraN ∧
      (update_global_graph (applyBatches (emptyGraph src) bs) ns es).edges =
        (applyBatches (emptyGraph src) bs).edges ++ extraE) := by
  constructor
  · have hinv : ∀ g : Graph,
        ((g.nodes.map GNode.id).Nodup ∧ (g.edges.map edgeKey).Nodup) →
        ∀ bs2 : List (List GNode × List GEdge),
          (((applyBatches g bs2).nodes.map GNode.id).Nodup ∧
            ((applyBatches g bs2).edges.map edgeKey).Nodup) := by
      intro g hg bs2
      induction bs2 generalizing g with
      | nil => exact hg
      | cons b rest ih =>
        have hstep :
            (((update_global_graph g b.1 b.2).nodes.map GNode.id).Nodup ∧
              ((update_global_graph g b.1 b.2).edges.map edgeKey).Nodup) :=
          ⟨mergeNodes_nodup_ids b.1 g.nodes hg.1,
            mergeEdges_nodup_keys b.2 g.edges hg.2⟩
        exact ih (update_global_graph g b.1 b.2) hstep
    exact hinv (emptyGraph src) ⟨List.nodup_nil, List.nodup_nil⟩ bs
  · intro ns es
    obtain ⟨extraN, hN⟩ := mergeNodes_append ns (applyBatches (emptyGraph src) bs).nodes
    obtain ⟨extraE, hE⟩ := mergeEdges_append es (applyBatches (emptyGraph src) bs).edges
    exact ⟨extraN, extraE, hN, hE⟩

/-- C9. `update_global_graph` silently drops id-less nodes: removing a
batch node whose `id` is missing, `None`, or empty changes nothing about
the merge result, and every node of the merged graph either was already
present or carries a truthy id (so an id-less batch node never appears in
the persisted graph); the merge is a total function, so it never fails. -/
theorem update_global_graph_drops_idless (g : Graph)
    (ns1 ns2 : List GNode) (es : List GEdge) (bad : GNode)
    (hbad : idOk bad.id = false) :
    update_global_graph g (ns1 ++ bad :: ns2) es =
      update_global_graph g (ns1 ++ ns2) es ∧
    ∀ m ∈ (update_global_graph g (ns1 ++ bad :: ns2) es).nodes,
      m ∈ g.nodes ∨ idOk m.id = true := by
  constructor
  · simp only [update_global_graph]
    rw [mergeNodes_skip_bad ns1 g.nodes bad ns2 hbad]
  · intro m hm
    have hm2 : m ∈ mergeNodes g.nodes (ns1 ++ bad :: ns2) := hm
    rcases mem_mergeNodes (ns1 ++ bad :: ns2) g.nodes m hm2 with hc | ⟨_, hok⟩
    · exact Or.inl hc
    · exact Or.inr hok

/-- Witness for C9 at a concrete input: a node with an empty-string id in
the middle of a batch is dropped and does not disturb the other node. -/
theorem update_global_graph_drops_idless_witness :
    idOk (GNode.mk (some "") []).id = false ∧
    update_global_graph (emptyGraph "wikivoyage_en")
        ([GNode.mk (some "a") []] ++ GNode.mk (some "") [] :: []) [] =
      update_global_graph (emptyGraph "wikivoyage_en")
        ([GNode.mk (some "a") []] ++ []) [] :=
  ⟨by decide,
    (update_global_graph_drops_idless (emptyGraph "wikivoyage_en")
      [GNode.mk (some "a") []] [] [] (GNode.mk (some "") []) (by decide)).1⟩

/-! ### Recursive fetch orchestrator: visited-set dedup
Embedding of the visited-set discipline of
`_fetch_linked_pages_recursive`: per candidate page the name is
normalized by replacing spaces with underscores, skipped when already in
the run-scoped `visited` set, and otherwise added to `visited` before the
HTTP request is made.  The network and the per-page link extraction are
abstracted into a `FetchEnv`; `fuel` stands for
`max_depth - current_depth`, so a call with `fuel = 0` models the
`current_depth >= max_depth` early return, and the recursion into level-2
children (guarded by `current_depth < max_depth - 1` in the source) is
the call one `fuel` lower. -/

/-- Environment of one run: whether a page request yields a usable
response, and which child links the level-2 section extraction finds on
that page. -/
structure FetchEnv where
  fetchOk : String → Bool
  childLinks : String → List String

/-- Run-scoped traversal state: the `visited` set (as a list) and the
trace of page names actually fetched, in order, by normalized name. -/
structure FetchState where
  visited : List String
  trace : List String

/-- ASCII lowercasing of one character, the fragment of Python's
`str.lower` relevant to this code base (written as an explicit table so
that concrete inputs evaluate inside the kernel). -/
def lowerChar : Char → Char
  | 'A' => 'a' | 'B' => 'b' | 'C' => 'c' | 'D' => 'd' | 'E' => 'e'
  | 'F' => 'f' | 'G' => 'g' | 'H' => 'h' | 'I' => 'i' | 'J' => 'j'
  | 'K' => 'k' | 'L' => 'l' | 'M' => 'm' | 'N' => 'n' | 'O' => 'o'
  | 'P' => 'p' | 'Q' => 'q' | 'R' => 'r' | 'S' => 's' | 'T' => 't'
  | 'U' => 'u' | 'V' => 'v' | 'W' => 'w' | 'X' => 'x' | 'Y' => 'y'
  | 'Z' => 'z' | c => c

/-- Python `s.lower()` (ASCII fragment). -/
def lowerStr (s : String) : String :=
  String.mk (s.data.map lowerChar)

/-- The fetcher's page-name normalization:
`page_name.replace(" ", "_")`. -/
def normalizePage (s : String) : String :=
  String.mk (s.data.map (fun c => if c = ' ' then '_' else c))

/-- One traversal level: process the candidate list in order, skipping
names whose normalization is already visited, marking before fetching,
and descending into the child links with the supplied deeper-level
call. -/
def fetchChildren (env : FetchEnv) (deeper : List String → FetchState → FetchState) :
    List String → FetchState → FetchState
  | [], s => s
  | name :: rest, s =>
    let n := normalizePage name
    if n ∈ s.visited then
      fetchChildren env deeper rest s
    else
      let s1 : FetchState := ⟨n :: s.visited, s.trace ++ [n]⟩
      let s2 := if env.fetchOk n = true then deeper (env.childLinks n) s1 else s1
      fetchChildren env deeper rest s2

/-- `_fetch_linked_pages_recursive`, by remaining depth. -/
def fetchRec (env : FetchEnv) : Nat → List String → FetchState → FetchState
  | 0, _, s => s
  | fuel + 1, names, s => fetchChildren env (fetchRec env fuel) names s

/-- The claim's case- and space-insensitive page-name canonical form:
lowercase, then spaces to underscores. -/
def caseSpaceNormalize (s : String) : String :=
  normalizePage (lowerStr s)

theorem fetchChildren_cons (env : FetchEnv)
    (deeper : List String → FetchState → FetchState)
    (name : String) (rest : List String) (s : FetchState) :
    fetchChildren env deeper (name :: rest) s =
      if normalizePage name ∈ s.visited then
        fetchChildren env deeper rest s
      else
        fetchChildren env deeper rest
          (if env.fetchOk (normalizePage name) = true then
            deeper (env.childLinks (normalizePage name))
              ⟨normalizePage name :: s.visited, s.trace ++ [normalizePage name]⟩
          else
            ⟨normalizePage name :: s.visited, s.trace ++ [normalizePage name]⟩) := rfl

/-- Traversal invariant: the fetch trace has no duplicates and every
fetched name has been recorded in the visited set. -/
def FetchInv (s : FetchState) : Prop :=
  s.trace.Nodup ∧ ∀ x ∈ s.trace, x ∈ s.visited

theorem fetchChildren_inv (env : FetchEnv)
    (deeper : List String → FetchState → FetchState)
    (hd : ∀ l s, FetchInv s →
      FetchInv (deeper l s) ∧ ∀ v ∈ s.visited, v ∈ (deeper l s).visited) :
    ∀ names s, FetchInv s →
      FetchInv (fetchChildren env deeper names s) ∧
      ∀ v ∈ s.visited, v ∈ (fetchChildren env deeper names s).visited := by
  intro names
  induction names with
  | nil => intro s hs; exact ⟨hs, fun v hv => hv⟩
  | cons name rest ih =>
    intro s hs
    rw [fetchChildren_cons]
    by_cases hmem : normalizePage name ∈ s.visited
    · rw [if_pos hmem]
      exact ih s hs
    · rw [if_neg hmem]
      have hs1 : FetchInv ⟨normalizePage name :: s.visited,
          s.trace ++ [normalizePage name]⟩ := by
        constructor
        · rw [List.nodup_append]
          refine ⟨hs.1, List.nodup_singleton _, ?_⟩
          intro x hx hx1
          rw [List.mem_singleton] at hx1
          rw [hx1] at hx
          exact hmem (hs.2 _ hx)
        · intro x hx
          rcases List.mem_append.mp hx with h1 | h2
          · exact List.mem_cons_of_mem _ (hs.2 x h1)
          · rw [List.mem_singleton] at h2
            rw [h2]
            exact List.mem_cons_self _ _
      by_cases hok : env.fetchOk (normalizePage name) = true
      · rw [if_pos hok]
        have hdeep := hd (env.childLinks (normalizePage name)) _ hs1
        have hrest := ih _ hdeep.1
        refine ⟨hrest.1, fun v hv => ?_⟩
        have hv1 : v ∈ (⟨normalizePage name :: s.visited,
            s.trace ++ [normalizePage name]⟩ : FetchState).visited :=
          List.mem_cons_of_mem _ hv
        exact hrest.2 v (hdeep.2 v hv1)
      · rw [if_neg hok]
        have hrest := ih _ hs1
        refine ⟨hrest.1, fun v hv => ?_⟩
        exact hrest.2 v (List.mem_cons_of_mem _ hv)

theorem fetchRec_inv (env : FetchEnv) :
    ∀ fuel names s, FetchInv s →
      FetchInv (fetchRec env fuel names s) ∧
      ∀ v ∈ s.visited, v ∈ (fetchRec env fuel names s).visited := by
  intro fuel
  induction fuel with
  | zero => intro names s hs; exact ⟨hs, fun v hv => hv⟩
  | succ fuel ih =>
    intro names s hs
    exact fetchChildren_inv env (fetchRec env fuel) (fun l s2 hs2 => ih l s2 hs2)
      names s hs

/-- C2 (amended). Fetch-once dedup under the fetcher's actual
normalization: in any single run of the recursive fetch (any candidate
list, any depth, any environment), the sequence of fetched page names —
each normalized by replacing spaces with underscores, the normalization
the source applies, which is case-sensitive — contains no duplicates:
every page is added to the run-scoped visited set before its fetch and
skipped whenever its normalized name is already in the set, so it is
fetched at most once even when reached via two different parents. -/
theorem fetch_trace_nodup (env : FetchEnv) (fuel : Nat) (names : List String) :
    (fetchRec env fuel names ⟨[], []⟩).trace.Nodup :=
  (fetchRec_inv env fuel names ⟨[], []⟩
    ⟨List.nodup_nil, fun x hx => absurd hx (List.not_mem_nil x)⟩).1.1

/-- C2 counterexample to the claim as stated: with the claim's case- and
space-insensitive normalization, two fetches in one run can target the
same normalized page name.  The run over the candidate list
`["AB", "ab"]` performs two fetches, `"AB"` and `"ab"`, which are
distinct to the code but identical under case-insensitive
normalization. -/
theorem fetch_dedup_case_sensitive_cex :
    (fetchRec ⟨fun _ => false, fun _ => []⟩ 1 ["AB", "ab"] ⟨[], []⟩).trace =
        ["AB", "ab"] ∧
    caseSpaceNormalize "AB" = caseSpaceNormalize "ab" ∧
    "AB" ≠ "ab" := by
  refine ⟨?_, ?_, ?_⟩ <;> decide

/-! ### Breadcrumb path normalization
Embedding of `_normalize_breadcrumb_path`.  A breadcrumb item is used
only through `crumb.get("name", "")`, so a chain is modelled as the list
of those name strings (a missing key gives `""`, which the code skips). -/

/-- The character filter of `_normalize_breadcrumb_path`:
`c.isalnum() or c in ['_', '-']` (ASCII fragment of `isalnum`). -/
def segChar (c : Char) : Bool :=
  c.isAlphanum || c == '_' || c == '-'

/-- Per-segment normalization from the source: lowercase, replace the
space character with an underscore, then keep only
alphanumeric/underscore/hyphen characters. -/
def normalizeSegment (s : List Char) : List Char :=
  ((s.map lowerChar).map (fun c => if c = ' ' then '_' else c)).filter segChar

/-- The `path_parts` loop: skip falsy names, normalize, and keep only
segments whose normalization is non-empty. -/
def pathParts : List (List Char) → List (List Char)
  | [] => []
  | name :: rest =>
    if name ≠ [] then
      if normalizeSegment name ≠ [] then
        normalizeSegment name :: pathParts rest
      else
        pathParts rest
    else
      pathParts rest

/-- Python `"/".join(path_parts)` (on the empty list the source returns
`""` early, which coincides with the empty join). -/
def joinSlash : List (List Char) → List Char
  | [] => []
  | [p] => p
  | p :: q :: rest => p ++ '/' :: joinSlash (q :: rest)

/-- `_normalize_breadcrumb_path` on the chain's name strings. -/
def normalize_breadcrumb_path (names : List String) : String :=
  String.mk (joinSlash (pathParts (names.map String.data)))

/-- The per-segment normalization exactly as C7 words it: lowercases,
replaces every whitespace character with an underscore, strips characters
that are not alphanumeric/underscore/hyphen. -/
def normalizeSegmentClaim (s : List Char) : List Char :=
  ((s.map lowerChar).map (fun c => if c.isWhitespace then '_' else c)).filter segChar

/-- The path normalization exactly as C7 words it (refinement reference,
to be compared with `normalize_breadcrumb_path`): normalize each segment
and join the segments with `"/"`. -/
def normalize_breadcrumb_path_claim (names : List String) : String :=
  String.mk (joinSlash (names.map (fun n => normalizeSegmentClaim n.data)))

/-- C7 counterexample: the source replaces only the space character (a
tab is stripped, not turned into an underscore) and skips segments whose
normalization is empty (no empty path component is joined), so the
claim's per-segment description and join disagree with the code on the
chain `["a\tb", "!!!", "c"]`. -/
theorem normalize_breadcrumb_spec_cex :
    normalize_breadcrumb_path ["a\tb", "!!!", "c"] = "ab/c" ∧
    normalize_breadcrumb_path_claim ["a\tb", "!!!", "c"] = "a_b//c" ∧
    normalize_breadcrumb_path ["a\tb", "!!!", "c"] ≠
      normalize_breadcrumb_path_claim ["a\tb", "!!!", "c"] := by
  refine ⟨?_, ?_, ?_⟩ <;> decide

/-- The amended per-chain description: normalize every segment as the
source does and join the non-empty results with `"/"`. -/
def normalize_breadcrumb_path_amended_ref (names : List String) : String :=
  String.mk (joinSlash (((names.map (fun n => normalizeSegment n.data)).filter
    (fun p => p ≠ []))))

theorem pathParts_eq (names : List (List Char)) :
    pathParts names = (names.map normalizeSegment).filter (fun p => p ≠ []) := by
  induction names with
  | nil => rfl
  | cons name rest ih =>
    by_cases hname : name ≠ []
    · by_cases hnorm : normalizeSegment name ≠ []
      · show (if name ≠ [] then _ else _) = _
        rw [if_pos hname, if_pos hnorm]
        simp only [List.map_cons, List.filter_cons]
        rw [if_pos (by exact decide_eq_true hnorm)]
        rw [ih]
      · show (if name ≠ [] then _ else _) = _
        rw [if_pos hname, if_neg hnorm]
        simp only [List.map_cons, List.filter_cons]
        rw [if_neg (by simpa using hnorm)]
        exact ih
    · have hnil : name = [] := not_not.mp hname
      show (if name ≠ [] then _ else _) = _
      rw [if_neg hname]
      have : normalizeSegment name = [] := by rw [hnil]; rfl
      simp only [List.map_cons, List.filter_cons]
      rw [if_neg (by simpa using this)]
      exact ih

/-- C7 (amended). `normalize_breadcrumb_path` lowercases each segment,
replaces space characters with underscores (other whitespace is removed
by the character filter), strips characters that are not
alphanumeric/underscore/hyphen, skips segments whose normalization is
empty, and joins the remaining segments with `"/"`; the empty chain
yields the empty string, and the chain
`["Europe", "Central Europe", "Poland"]` yields
`"europe/central_europe/poland"`. -/
theorem normalize_breadcrumb_path_amended_correct :
    (∀ names, normalize_breadcrumb_path names =
      normalize_breadcrumb_path_amended_ref names) ∧
    normalize_breadcrumb_path [] = "" ∧
    normalize_breadcrumb_path ["Europe", "Central Europe", "Poland"] =
      "europe/central_europe/poland" := by
  refine ⟨?_, by decide, by decide⟩
  intro names
  unfold normalize_breadcrumb_path normalize_breadcrumb_path_amended_ref
  rw [pathParts_eq, List.map_map]
  rfl

theorem segChar_ne_slash {c : Char} (h : segChar c = true) : c ≠ '/' := by
  intro he
  rw [he] at h
  exact absurd h (by decide)

/-- Adjacent-character relation used to state that the path never
contains two consecutive slashes. -/
def NoDoubleSlash (a b : Char) : Prop := ¬ (a = '/' ∧ b = '/')

theorem chain'_of_no_slash :
    ∀ l : List Char, (∀ c ∈ l, c ≠ '/') → List.Chain' NoDoubleSlash l := by
  intro l
  induction l with
  | nil => intro _; exact List.chain'_nil
  | cons a t ih =>
    intro h
    rw [List.chain'_cons']
    refine ⟨fun y _ => ?_, ih (fun c hc => h c (List.mem_cons_of_mem a hc))⟩
    intro hab
    exact h a (List.mem_cons_self a t) hab.1

theorem joinSlash_ne_nil (p : List Char) (rest : List (List Char)) (hp : p ≠ []) :
    joinSlash (p :: rest) ≠ [] := by
  cases rest with
  | nil => exact hp
  | cons q r =>
    show p ++ '/' :: joinSlash (q :: r) ≠ []
    simp

theorem joinSlash_wf :
    ∀ parts : List (List Char),
      (∀ p ∈ parts, p ≠ [] ∧ ∀ c ∈ p, segChar c = true) →
      (∀ c ∈ joinSlash parts, segChar c = true ∨ c = '/') ∧
      (joinSlash parts).head? ≠ some '/' ∧
      (joinSlash parts).getLast? ≠ some '/' ∧
      List.Chain' NoDoubleSlash (joinSlash parts) := by
  intro parts
  induction parts with
  | nil =>
    intro _
    exact ⟨fun c hc => absurd hc (List.not_mem_nil c), by simp [joinSlash],
      by simp [joinSlash], List.chain'_nil⟩
  | cons p rest ih =>
    intro hok
    have hp := hok p (List.mem_cons_self p rest)
    have hpne : p ≠ [] := hp.1
    have hpch : ∀ c ∈ p, segChar c = true := hp.2
    have hpns : ∀ c ∈ p, c ≠ '/' := fun c hc => segChar_ne_slash (hpch c hc)
    cases rest with
    | nil =>
      refine ⟨fun c hc => Or.inl (hpch c hc), ?_, ?_, chain'_of_no_slash p hpns⟩
      · show p.head? ≠ some '/'
        cases p with
        | nil => exact absurd rfl hpne
        | cons a t =>
          intro hhd
          have ha : a = '/' := by
            have := Option.some.inj hhd
            exact this
          exact hpns a (List.mem_cons_self a t) ha
      · show p.getLast? ≠ some '/'
        intro hlast
        have : '/' ∈ p := List.mem_of_mem_getLast? (by rw [hlast]; rfl)
        exact hpns '/' this rfl
    | cons q rest2 =>
      have ihq := ih (fun r hr => hok r (List.mem_cons_of_mem p hr))
      have hq := hok q (List.mem_cons_of_mem p (List.mem_cons_self q rest2))
      have hJne : joinSlash (q :: rest2) ≠ [] := joinSlash_ne_nil q rest2 hq.1
      show
        (∀ c ∈ p ++ '/' :: joinSlash (q :: rest2), segChar c = true ∨ c = '/') ∧
        (p ++ '/' :: joinSlash (q :: rest2)).head? ≠ some '/' ∧
        (p ++ '/' :: joinSlash (q :: rest2)).getLast? ≠ some '/' ∧
        List.Chain' NoDoubleSlash (p ++ '/' :: joinSlash (q :: rest2))
      refine ⟨?_, ?_, ?_, ?_⟩
      · intro c hc
        rcases List.mem_append.mp hc with h1 | h2
        · exact Or.inl (hpch c h1)
        · rcases List.mem_cons.mp h2 with h3 | h4
          · exact Or.inr h3
          · exact ihq.1 c h4
      · rw [List.head?_append_of_ne_nil _ hpne]
        cases p with
        | nil => exact absurd rfl hpne
        | cons a t =>
          intro hhd
          exact hpns a (List.mem_cons_self a t) (Option.some.inj hhd)
      · rw [List.getLast?_append]
        have hcc : ('/' :: joinSlash (q :: rest2)).getLast? =
            (joinSlash (q :: rest2)).getLast? := by
          cases hJ : joinSlash (q :: rest2) with
          | nil => exact absurd hJ hJne
          | cons b bt => rw [List.getLast?_cons_cons]
        rw [hcc]
        cases hL : (joinSlash (q :: rest2)).getLast? with
        | none => exact absurd (List.getLast?_eq_none_iff.mp hL) hJne
        | some z =>
          have hz : some z ≠ some '/' := by rw [← hL]; exact ihq.2.2.1
          simpa using hz
      · rw [List.chain'_append]
        refine ⟨chain'_of_no_slash p hpns, ?_, ?_⟩
        · rw [List.chain'_cons']
          refine ⟨fun y hy => ?_, ihq.2.2.2⟩
          intro hyy
          have hyne : (joinSlash (q :: rest2)).head? ≠ some '/' := ihq.2.1
          have : (joinSlash (q :: rest2)).head? = some '/' := by
            rw [← hyy.2]
            exact hy
          exact hyne this
        · intro x hx y hy
          have hxp : x ∈ p := List.mem_of_mem_getLast? hx
          intro hxy
          exact hpns x hxp hxy.1

theorem pathParts_ok (names : List (List Char)) :
    ∀ p ∈ pathParts names, p ≠ [] ∧ ∀ c ∈ p, segChar c = true := by
  intro p hp
  rw [pathParts_eq] at hp
  have hmem := List.mem_filter.mp hp
  refine ⟨by simpa using hmem.2, ?_⟩
  obtain ⟨x, _, hx⟩ := List.mem_map.mp hmem.1
  intro c hc
  rw [← hx] at hc
  exact (List.mem_filter.mp hc).2

/-- C10. The output of `_normalize_breadcrumb_path` is always a
well-formed relative path: it never starts or ends with a slash, never
contains two consecutive slashes (so it has no empty segments), and every
character is alphanumeric, underscore, hyphen, or the slash separator;
segments whose names normalize to the empty string are skipped
entirely. -/
theorem normalize_breadcrumb_path_well_formed (names : List String) :
    (∀ c ∈ (normalize_breadcrumb_path names).data,
      segChar c = true ∨ c = '/') ∧
    (normalize_breadcrumb_path names).data.head? ≠ some '/' ∧
    (normalize_breadcrumb_path names).data.getLast? ≠ some '/' ∧
    ¬ List.IsInfix ['/', '/'] (normalize_breadcrumb_path names).data := by
  have hwf := joinSlash_wf (pathParts (names.map String.data))
    (pathParts_ok (names.map String.data))
  have hdata : (normalize_breadcrumb_path names).data =
      joinSlash (pathParts (names.map String.data)) := rfl
  rw [hdata]
  refine ⟨hwf.1, hwf.2.1, hwf.2.2.1, ?_⟩
  rintro ⟨s, t, hst⟩
  have hch := hwf.2.2.2
  rw [← hst, List.append_assoc] at hch
  have h2 : List.Chain' NoDoubleSlash (['/', '/'] ++ t) :=
    (List.chain'_append.mp hch).2.1
  have h3 : NoDoubleSlash '/' '/' := (List.chain'_cons.mp h2).1
  exact h3 ⟨rfl, rfl⟩

/-! ### Country detection from breadcrumbs
Embedding of `_detect_country_from_breadcrumbs`.  A breadcrumb item is
used only through `crumb.get("name", "")`, so the chain is modelled as
the list of those name strings. -/

/-- Python substring test `pat in s`. -/
def containsSub (s pat : List Char) : Bool :=
  if pat.isPrefixOf s then true
  else
    match s with
    | [] => false
    | _ :: t => containsSub t pat

/-- The `region_keywords` list of known continent/subcontinent names. -/
def region_keywords : List String :=
  ["europe", "asia", "america", "africa", "oceania",
   "central europe", "western europe", "eastern europe", "southern europe",
   "northern europe",
   "southeast asia", "east asia", "south asia", "central asia", "middle east",
   "north america", "south america", "central america", "caribbean",
   "east africa", "west africa", "southern africa", "north africa"]

/-- The `admin_keywords` list of explicit administrative-region words. -/
def admin_keywords : List String :=
  ["voivodeship", "voivodship", "oblast", "state", "province", "region",
   "county", "prefecture", "governorate", "autonomous region"]

/-- The Polish voivodeship suffix patterns. -/
def polish_suffixes : List String := ["skie", "ckie", "zkie"]

/-- The compound-direction words of the last admin-region heuristic. -/
def compound_words : List String :=
  ["lower", "upper", "greater", "lesser", "north", "south", "east", "west"]

/-- `is_administrative_region` from `_detect_country_from_breadcrumbs`. -/
def is_administrative_region (name : String) : Bool :=
  let nl := (lowerStr name).data
  if admin_keywords.any (fun k => containsSub nl k.data) then true
  else if polish_suffixes.any (fun suf => suf.data.isSuffixOf nl) then true
  else if (compound_words.any (fun w => containsSub nl w.data)) &&
      !(region_keywords.any (fun k => containsSub nl k.data)) then true
  else false

/-- The backwards scan of `_detect_country_from_breadcrumbs`, over the
ancestor names already reversed into most-specific-first order: skip
known continent/subcontinent names and administrative regions, return
the first survivor. -/
def detectCountryScan : List String → Option String
  | [] => none
  | n :: rest =>
    if region_keywords.any (fun k => containsSub (lowerStr n).data k.data) then
      detectCountryScan rest
    else if is_administrative_region n then
      detectCountryScan rest
    else
      some n

/-- `_detect_country_from_breadcrumbs`: requires at least two breadcrumbs,
drops the LAST breadcrumb (`breadcrumbs[:-1]`), filters out falsy names,
and scans from most specific to least specific.  The `current_query`
argument is accepted but never used by the source. -/
def detect_country_from_breadcrumbs (breadcrumbs : List String)
    (current_query : String) : Option String :=
  if breadcrumbs.length < 2 then none
  else
    let names := (breadcrumbs.dropLast).filter (fun n => n ≠ "")
    if names = [] then none
    else detectCountryScan names.reverse

/-- C4. The claim (and the function's own docstring) states that on the
breadcrumb chain `["Europe", "Central Europe", "Poland"]` with current
query `"Krakow"` the detector returns `"Poland"`.  The code instead drops
the last chain element (`breadcrumbs[:-1]`), leaving only the two
continent names, and returns `None` on exactly this input; the documented
answer `"Poland"` is produced only when the current page is included as a
fourth, final chain element. -/
theorem detect_country_breadcrumbs_eval :
    detect_country_from_breadcrumbs ["Europe", "Central Europe", "Poland"]
        "Krakow" = none ∧
    detect_country_from_breadcrumbs ["Europe", "Central Europe", "Poland", "Krakow"]
        "Krakow" = some "Poland" := by
  refine ⟨?_, ?_⟩ <;> decide

/-! ### Heading matching for section content and section links
Embedding of the heading-selection logic of `_extract_section_content`
and `_extract_links_from_section`.  A page body is modelled as its list
of `h2/h3/h4` headings; the DOM walk that collects a matched section's
content (resp. hyperlinks) is abstracted into a per-heading payload,
since the claims under study are about which heading is matched and what
is returned when none is. -/

/-- One `h2/h3/h4` heading of a parsed page: its `id` attribute
(`h.get('id', '')`), its raw text (`h.get_text()`), and the content
string / link list the extraction walks would produce for its
section. -/
structure Heading where
  id : String
  text : String
  content : String
  links : List String

/-- ASCII whitespace for Python `str.strip()`. -/
def isWsChar (c : Char) : Bool :=
  c == ' ' || c == '\t' || c == '\n' || c == '\r'

/-- Python `s.strip()` (ASCII fragment). -/
def trimChars (s : List Char) : List Char :=
  ((s.dropWhile isWsChar).reverse.dropWhile isWsChar).reverse

/-- `section_title.lower().replace(" ", "_")`, the normalized heading id
both extractors compute. -/
def normalizeSectionId (title : String) : String :=
  normalizePage (lowerStr title)

/-- `h.get_text().strip().lower()` as a character list. -/
def headingTextLower (h : Heading) : List Char :=
  (trimChars h.text.data).map lowerChar

/-- `_extract_section_content`'s heading selection and result: first an
exact (case-sensitive) id-attribute match on the normalized id, else the
first heading whose stripped lowercased text CONTAINS the lowercased
title as a substring; the matched heading's section content is returned,
and the empty string when no heading matches. -/
def extract_section_content (page : List Heading) (title : String) : String :=
  match page.find? (fun h => h.id == normalizeSectionId title) with
  | some h => h.content
  | none =>
    match page.find?
        (fun h => containsSub (headingTextLower h) (lowerStr title).data) with
    | some h => h.content
    | none => ""

/-- The boundary test of `_extract_links_from_section`'s text match: the
character right after the matched prefix must be space, colon, newline,
or tab (the end-of-string case is handled by the length disjunct). -/
def boundaryOk (hl sl : List Char) : Bool :=
  match hl.drop sl.length with
  | [] => false
  | c :: _ => c == ' ' || c == ':' || c == '\n' || c == '\t'

/-- Method-2 text match of `_extract_links_from_section`: exact
lowercased equality, or prefix match followed by a boundary character or
the end of the text. -/
def linkTextMatch (title : String) (h : Heading) : Bool :=
  headingTextLower h == (lowerStr title).data ||
  ((lowerStr title).data.isPrefixOf (headingTextLower h) &&
    (((headingTextLower h).length == (lowerStr title).data.length) ||
      boundaryOk (headingTextLower h) (lowerStr title).data))

/-- `_extract_links_from_section`'s heading selection and result: first a
case-insensitive id-attribute match on the normalized id, else the first
heading passing `linkTextMatch`; the matched heading's section links are
returned, and `[]` when no heading matches. -/
def extract_links_from_section (page : List Heading) (title : String) :
    List String :=
  match page.find? (fun h => lowerStr h.id == normalizeSectionId title) with
  | some h => h.links
  | none =>
    match page.find? (fun h => linkTextMatch title h) with
    | some h => h.links
    | none => []

/-- The character following the requested title inside a heading's
lowercased text, if any. -/
def afterTitleChar (h : Heading) (title : String) : Option Char :=
  ((headingTextLower h).drop (lowerStr title).data.length).head?

/-- A page whose only heading is `Seeing` (with a matching id), carrying
some non-empty section content and a link. -/
def seeingPage : List Heading :=
  [{ id := "Seeing", text := "Seeing", content := "Visit the tower.",
     links := ["Tower"] }]

/-- C3 counterexample: requesting section `"See"` on a page whose only
heading is `"Seeing"` (no boundary character after the prefix) returns
that heading's non-empty content, because `_extract_section_content`
matches by substring containment; the boundary-checked matching the claim
describes exists only in `_extract_links_from_section`, which indeed
matches nothing here. -/
theorem extract_section_content_seeing_cex :
    extract_section_content seeingPage "See" = "Visit the tower." ∧
    extract_section_content seeingPage "See" ≠ "" ∧
    extract_links_from_section seeingPage "See" = [] := by
  refine ⟨?_, ?_, ?_⟩ <;> decide

/-- C3 (amended). The boundary-checked heading matching holds for
`_extract_links_from_section` (not for `_extract_section_content`, which
matches by case-insensitive substring containment): it locates a heading
first by case-insensitive normalized-id match, else by case-insensitive
exact text match or prefix text match whose following character is
space, colon, newline, or tab; so whenever no heading's lowercased id
equals the normalized title and every heading text differs from the
title and, where the title is a prefix, is followed by none of those
boundary characters, no heading is matched and the empty link list is
returned. -/
theorem extract_links_boundary (page : List Heading) (title : String)
    (hid : ∀ h ∈ page, lowerStr h.id ≠ normalizeSectionId title)
    (hne : ∀ h ∈ page, headingTextLower h ≠ (lowerStr title).data)
    (hbnd : ∀ h ∈ page,
      (lowerStr title).data.isPrefixOf (headingTextLower h) = true →
      afterTitleChar h title ∉
        ([some ' ', some ':', some '\n', some '\t'] : List (Option Char))) :
    extract_links_from_section page title = [] := by
  have h1 : page.find? (fun h => lowerStr h.id == normalizeSectionId title) =
      none := by
    rw [List.find?_eq_none]
    intro h hh
    simp only [Bool.not_eq_true]
    exact beq_eq_false_iff_ne.mpr (hid h hh)
  have h2 : page.find? (fun h => linkTextMatch title h) = none := by
    rw [List.find?_eq_none]
    intro h hh
    intro hmatch
    have e1 : (headingTextLower h == (lowerStr title).data) = false :=
      beq_eq_false_iff_ne.mpr (hne h hh)
    unfold linkTextMatch at hmatch
    rw [e1, Bool.false_or, Bool.and_eq_true] at hmatch
    obtain ⟨hpre, hrest⟩ := hmatch
    rcases Bool.or_eq_true_iff.mp hrest with hlen | hbd
    · have hlen2 : (headingTextLower h).length = (lowerStr title).data.length := by
        simpa using hlen
      have : (lowerStr title).data = headingTextLower h :=
        List.IsPrefix.eq_of_length ( List.isPrefixOf_iff_prefix.mp hpre) hlen2.symm
      exact hne h hh this.symm
    · unfold boundaryOk at hbd
      cases hdrop : (headingTextLower h).drop (lowerStr title).data.length with
      | nil => rw [hdrop] at hbd; exact Bool.false_ne_true hbd
      | cons c cs =>
        rw [hdrop] at hbd
        have hafter : afterTitleChar h title = some c := by
          unfold afterTitleChar
          rw [hdrop]
          rfl
        have hnotin := hbnd h hh hpre
        rw [hafter] at hnotin
        have hc : c = ' ' ∨ c = ':' ∨ c = '\n' ∨ c = '\t' := by
          have := hbd
          simp at this
          tauto
        rcases hc with hc | hc | hc | hc <;> rw [hc] at hnotin <;> simp at hnotin
  simp only [extract_links_from_section, h1, h2]

/-- Witness for C3's amended theorem at the `Seeing` page: its heading
id and text fail all three matching hypotheses for the request `"See"`
(the character after the prefix is `i`), and the link extraction indeed
returns no links. -/
theorem extract_links_boundary_witness :
    (∀ h ∈ seeingPage, lowerStr h.id ≠ normalizeSectionId "See") ∧
    (∀ h ∈ seeingPage, headingTextLower h ≠ (lowerStr "See").data) ∧
    (∀ h ∈ seeingPage,
      (lowerStr "See").data.isPrefixOf (headingTextLower h) = true →
      afterTitleChar h "See" ∉
        ([some ' ', some ':', some '\n', some '\t'] : List (Option Char))) ∧
    extract_links_from_section seeingPage "See" = [] :=
  ⟨by decide, by decide, by decide,
    extract_links_boundary seeingPage "See" (by decide) (by decide) (by decide)⟩

/-! ### Relationship classifier
Embedding of `_detect_relationship_type`.  The Python nested
`if section_lower in [...]: if parent == ...` structure falls through to
the later checks when the inner parent/child tests fail, so it is
flattened here into one if-chain whose conditions conjoin the section
membership with the parent/child tests, preserving evaluation order. -/

/-- `_detect_relationship_type(parent_type, child_type, section)`. -/
def detect_relationship_type (parent_type child_type sect : String) : String :=
  if lowerStr sect ∈ (["cities", "cities and towns", "municipalities"] : List String) ∧
      parent_type = "country" ∧ child_type = "city" then "contains"
  else if lowerStr sect ∈ (["cities", "cities and towns", "municipalities"] : List String) ∧
      parent_type = "region" ∧ child_type = "city" then "contains"
  else if lowerStr sect ∈ (["regions", "subregions"] : List String) ∧
      parent_type = "country" ∧ child_type = "region" then "contains"
  else if lowerStr sect ∈ (["regions", "subregions"] : List String) ∧
      parent_type = "region" ∧ child_type = "region" then "part_of"
  else if lowerStr sect = "other destinations" then "contains"
  else if parent_type = "country" ∧
      child_type ∈ (["city", "region", "destination"] : List String) then "contains"
  else if child_type = "city" ∧ parent_type = "country" then "located_in"
  else "related_to"

/-- C5 counterexample: for the unknown section name
`"Unknown Section"` (in none of the known section groups) with parent
`country` and child `city`, the classifier returns `"contains"`, not the
claimed `"located_in"`: the generic `contains` default for a country
parent fires before the `located_in` branch, which is unreachable for
this parent/child pair. -/
theorem classify_relationship_located_in_cex :
    lowerStr "Unknown Section" ∉
      (["cities", "cities and towns", "municipalities"] : List String) ∧
    lowerStr "Unknown Section" ∉ (["regions", "subregions"] : List String) ∧
    lowerStr "Unknown Section" ≠ "other destinations" ∧
    detect_relationship_type "country" "city" "Unknown Section" = "contains" ∧
    detect_relationship_type "country" "city" "Unknown Section" ≠ "located_in" := by
  refine ⟨?_, ?_, ?_, ?_, ?_⟩ <;> decide

/-- C5 (amended). For every origin section name matching none of the
known section groups ({cities, cities and towns, municipalities},
{regions, subregions}, "other destinations"), `classifyRelationship`
with parent type `country` and child type `city` returns `"contains"`:
the generic geographic default for a country parent applies first, so
the `located_in` fallback can never be reached for this pair. -/
theorem classify_relationship_country_city_default (s : String)
    (h1 : lowerStr s ∉
      (["cities", "cities and towns", "municipalities"] : List String))
    (h2 : lowerStr s ∉ (["regions", "subregions"] : List String))
    (h3 : lowerStr s ≠ "other destinations") :
    detect_relationship_type "country" "city" s = "contains" := by
  unfold detect_relationship_type
  rw [if_neg (fun hc => h1 hc.1), if_neg (fun hc => h1 hc.1),
    if_neg (fun hc => h2 hc.1), if_neg (fun hc => h2 hc.1), if_neg h3,
    if_pos ⟨rfl, by decide⟩]

/-- Witness for C5's amended theorem at the section `"Unknown Section"`. -/
theorem classify_relationship_country_city_default_witness :
    (lowerStr "Unknown Section" ∉
      (["cities", "cities and towns", "municipalities"] : List String)) ∧
    (lowerStr "Unknown Section" ∉ (["regions", "subregions"] : List String)) ∧
    (lowerStr "Unknown Section" ≠ "other destinations") ∧
    detect_relationship_type "country" "city" "Unknown Section" = "contains" :=
  ⟨by decide, by decide, by decide,
    classify_relationship_country_city_default "Unknown Section"
      (by decide) (by decide) (by decide)⟩

/-! ### Node classifier
Embedding of `_detect_node_type`.  The function reads
`parsed_data["metadata"]["sections"]` (a mapping of recognized section
slugs to content), the `metadata["regions"]`/`metadata["cities"]` list
extracts, and the truthiness of `parsed_data["coordinates"]`. -/

/-- The slice of a parsed page consumed by `_detect_node_type`:
the recognized-sections mapping, the `metadata.regions` and
`metadata.cities` list extracts, and whether coordinates are present
(truthiness of the coordinates dict). -/
structure ParsedPage where
  sections : List (String × String)
  meta_regions : List String
  meta_cities : List String
  coordinates : Bool

/-- Python truthiness of `sections.get(k)`. -/
def secTruthy (p : ParsedPage) (k : String) : Bool :=
  match p.sections.lookup k with
  | some v => v != ""
  | none => false

/-- `_detect_node_type(query, parsed_data)` (the `query` argument is
unused by the source's decision logic). -/
def detect_node_type (query : String) (p : ParsedPage) : String :=
  if secTruthy p "regions" || secTruthy p "cities" ||
      !p.meta_regions.isEmpty || !p.meta_cities.isEmpty then "country"
  else if secTruthy p "get_in" || secTruthy p "get_around" then
    if secTruthy p "see" || secTruthy p "do" || secTruthy p "eat" then "city"
    else "destination"
  else if p.coordinates && !(secTruthy p "get_in") then "attraction"
  else if secTruthy p "see" || secTruthy p "do" then
    if !(secTruthy p "regions" || secTruthy p "cities" ||
        !p.meta_regions.isEmpty || !p.meta_cities.isEmpty) then "region"
    else "destination"
  else "destination"

/-- A parsed page with an empty recognized-sections mapping and no
coordinates whose `metadata.regions` list extract is nevertheless
non-empty. -/
def metaRegionsPage : ParsedPage :=
  { sections := [], meta_regions := ["Mazovia"], meta_cities := [],
    coordinates := false }

/-- C8 counterexample: the first classifier rule also consults the
`metadata.regions`/`metadata.cities` list extracts, so a parsed page with
an empty recognized-sections mapping and no coordinates but a non-empty
regions list classifies as `"country"`, not the claimed
`"destination"`. -/
theorem detect_node_type_meta_regions_cex :
    metaRegionsPage.sections = [] ∧
    metaRegionsPage.coordinates = false ∧
    detect_node_type "Mazovia region" metaRegionsPage = "country" ∧
    detect_node_type "Mazovia region" metaRegionsPage ≠ "destination" := by
  refine ⟨?_, ?_, ?_, ?_⟩ <;> decide

/-- C8 (amended). For every parsed page whose recognized-sections mapping
is empty, whose `metadata.regions` and `metadata.cities` list extracts
are empty, and which has no coordinates, `classifyNode` returns
`"destination"`: the country, city, destination-via-transport,
attraction, and region rules all fail to match, leaving the final
default. -/
theorem detect_node_type_default (q : String) (p : ParsedPage)
    (h1 : p.sections = []) (h2 : p.coordinates = false)
    (h3 : p.meta_regions = []) (h4 : p.meta_cities = []) :
    detect_node_type q p = "destination" := by
  have hsec : ∀ k, secTruthy p k = false := by
    intro k
    unfold secTruthy
    rw [h1]
    rfl
  simp [detect_node_type, hsec, h2, h3, h4]

/-- Witness for C8's amended theorem on the fully empty parsed page. -/
theorem detect_node_type_default_witness :
    (ParsedPage.mk [] [] [] false).sections = [] ∧
    (ParsedPage.mk [] [] [] false).coordinates = false ∧
    (ParsedPage.mk [] [] [] false).meta_regions = [] ∧
    (ParsedPage.mk [] [] [] false).meta_cities = [] ∧
    detect_node_type "Nowhere" (ParsedPage.mk [] [] [] false) = "destination" :=
  ⟨rfl, rfl, rfl, rfl,
    detect_node_type_default "Nowhere" (ParsedPage.mk [] [] [] false)
      rfl rfl rfl rfl⟩

end TravelGraph
